import Mathlib

/-!
# Verification of the go-vss Verifiable Secret Sharing library

This file is a shallow embedding, in Lean 4, of the Go package `vss`
(balena/go-vss): Feldman/Pedersen verifiable secret sharing over an
elliptic curve.

Conventions of the embedding:

* Go `*big.Int` values become `ℤ`; `big.Int.Mod` is Euclidean remainder
  with a nonnegative result for a positive modulus, which is exactly
  Lean's `Int.emod` (`%`).
* A `nil` pointer becomes `none` of an `Option`.
* Elliptic-curve points (`ECPoint`, the coordinate pairs handed to
  `elliptic.Curve`) become pairs `ℤ × ℤ`, and the external
  `elliptic.Curve` collaborator becomes an abstract `Curve` structure of
  operations on such pairs.
* The entropy source (`io.Reader` driving `crypto/rand.Int`) becomes a
  stream `draws : ℕ → ℤ` of the successive values produced by
  `cryptorand.Int(rand, Q)`; the contract of that external call (a value
  in `[0, Q)`) appears as a hypothesis on the stream.  The unbounded
  retry loops of the Go source are modelled with an explicit fuel
  parameter; the theorems speak about the runs that succeed.
* Fallible Go functions returning `(..., error)` become `Option`/`Except`
  valued functions.
-/

namespace VSS

/-! ## Polynomial evaluation

`evaluatePolynomial` is the current evaluator (Horner's method, from the
highest-degree coefficient down), translated from the Go source:

    y = new(big.Int).Set(poly[len(poly)-1])
    for i := len(poly) - 2; i >= 0; i-- {
      y.Mul(y, x); y.Mod(y, Q); y.Add(y, poly[i]); y.Mod(y, Q)
    }

`evaluatePolynomialOld` is the historical power-accumulation variant:

    Xi := big.NewInt(1); y := new(big.Int).Set(poly[0])
    for _, ai := range poly[1:] {
      Xi.Mul(Xi, x); Xi.Mod(Xi, N)
      aiXi := new(big.Int).Mul(ai, Xi); aiXi.Mod(aiXi, N)
      y.Add(y, aiXi); y.Mod(y, N)
    }

Both index an empty coefficient list out of bounds in Go; the `[]` case
below is unreachable for the nonempty lists the library builds. -/

/-- Current polynomial evaluator (Horner), from the Go source. -/
def evaluatePolynomial (Q : ℤ) (poly : List ℤ) (x : ℤ) : ℤ :=
  match poly.reverse with
  | [] => 0
  | c :: rest => rest.foldl (fun y a => (y * x % Q + a) % Q) c

/-- Historical polynomial evaluator (power accumulation), from the Go source. -/
def evaluatePolynomialOld (N : ℤ) (poly : List ℤ) (x : ℤ) : ℤ :=
  match poly with
  | [] => 0
  | p0 :: rest =>
    (rest.foldl
      (fun acc ai =>
        let Xi := acc.2 * x % N
        ((acc.1 + ai * Xi % N) % N, Xi))
      (p0, 1)).1

/-- Mathematical value both evaluators compute: `Σ coefficient i * x ^ i`,
written in Horner form over the coefficient list. -/
def polySum : List ℤ → ℤ → ℤ
  | [], _ => 0
  | a :: l, x => a + x * polySum l x

/-! ## Combine (src/combine.go, the field-order variant)

    func Combine(Q *big.Int, shares []*Share) (*big.Int, error)

The nested `for i / for j` loops, with the `i == j` skip and the
`ModInverse` failure branch, are translated index for index. -/

/-- The external `big.Int.ModInverse g n` (Go standard library), modelled
by its contract: the unique multiplicative inverse of `g` modulo `n`
in `[0, n)` when one exists, and `none` otherwise, mirroring the `nil`
result Go produces.  (Go computes it by the extended Euclidean
algorithm; the returned representative is the same.) -/
def modInverse (g n : ℤ) : Option ℤ :=
  ((List.range n.toNat).find? fun d : ℕ => g * (d : ℤ) % n = 1 % n).map
    fun d : ℕ => (d : ℤ)

/-- Inner loop of `Combine`: accumulate the Lagrange basis coefficient
for the share at index `i`, skipping `j = i`. -/
def combineInner (Q xi : ℤ) (i : ℕ) : ℕ → List (ℤ × ℤ) → ℤ → Option ℤ
  | _, [], basis => some basis
  | j, sj :: rest, basis =>
    if j = i then combineInner Q xi i (j + 1) rest basis
    else
      match modInverse ((sj.1 - xi) % Q) Q with
      | none => none
      | some denomInv =>
        combineInner Q xi i (j + 1) rest (basis * (sj.1 * denomInv % Q) % Q)

/-- Outer loop of `Combine`: accumulate `y_i * basis_i` into the secret. -/
def combineOuter (Q : ℤ) (all : List (ℤ × ℤ)) : ℕ → List (ℤ × ℤ) → ℤ → Option ℤ
  | _, [], secret => some secret
  | i, si :: rest, secret =>
    match combineInner Q si.1 i 0 all 1 with
    | none => none
    | some basis => combineOuter Q all (i + 1) rest ((secret + si.2 * basis % Q) % Q)

/-- `Combine` reconstructs the secret by Lagrange interpolation at 0 over
the provided shares, modulo `Q`.  A share is the pair `(X, Y)`. -/
def Combine (Q : ℤ) (shares : List (ℤ × ℤ)) : Option ℤ :=
  combineOuter Q shares 0 shares 0

/-! ## Split -/

/-- The six distinct fatal validation errors of `Split`, in source order. -/
inductive SplitError
  | thresholdTooSmall
  | partsLessThanThreshold
  | tooManyParts
  | thresholdTooLarge
  | secretNil
  | secretOutOfRange
  deriving DecidableEq, Repr

/-- The validation prefix of `Split`, checks in source order.  A `nil`
secret is `none`; note the source only compares `secret.Cmp(Q) >= 0`,
so only the upper bound of the documented range `[0, Q)` is enforced. -/
def splitValidate (Q : ℤ) (secret : Option ℤ) (parts threshold : ℤ) :
    Option SplitError :=
  if threshold < 1 then some .thresholdTooSmall
  else if parts < threshold then some .partsLessThanThreshold
  else if parts > 255 then some .tooManyParts
  else if threshold > 255 then some .thresholdTooLarge
  else
    match secret with
    | none => some .secretNil
    | some s => if s ≥ Q then some .secretOutOfRange else none

/-- The share list produced by a successful `Split` run, as a function of
the entropy-derived data: `secretPoly` is `randomPolynomial(rand, N,
secret, threshold-1)` (constant term the secret), `randomPoly` is the
blinding polynomial `randomPolynomial(rand, Q, 0, threshold-1)`, and
`xs` is the output of `uniqueCoords(Q, rand, parts)`.  `N` is
`curve.Params().N`; `Q` is the caller-supplied field order. -/
def splitShares (N Q : ℤ) (secretPoly randomPoly : List ℤ) (xs : List ℤ)
    (withBlinding : Bool) : List (ℤ × ℤ) :=
  xs.map fun x =>
    let y := evaluatePolynomial N secretPoly x
    (x, if withBlinding then (y + evaluatePolynomial Q randomPoly x) % Q else y)

/-- `Split` with its validation prefix: on a validation error no shares
are produced, otherwise the shares of `splitShares`. -/
def SplitRun (N Q : ℤ) (secret : Option ℤ) (parts threshold : ℤ)
    (secretPoly randomPoly : List ℤ) (xs : List ℤ) (withBlinding : Bool) :
    Except SplitError (List (ℤ × ℤ)) :=
  match splitValidate Q secret parts threshold with
  | some e => .error e
  | none => .ok (splitShares N Q secretPoly randomPoly xs withBlinding)

/-! ## Coordinate sampling (nonZeroInt / uniqueCoords) -/

/-- `nonZeroInt(rand, Q)`: draw from the entropy stream, discarding zero,
until a nonzero value appears.  `draws i` is the value produced by the
`i`-th call to `cryptorand.Int(rand, Q)`; the call contract (a value in
`[0, Q)`) is a hypothesis of the theorems.  Returns the accepted value
and the index of the next unread draw; `none` when the fuel bound on
the retry loop is exhausted. -/
def nonZeroInt (draws : ℕ → ℤ) : ℕ → ℕ → Option (ℤ × ℕ)
  | _, 0 => none
  | idx, fuel + 1 =>
    let i := draws idx
    if i = 0 then nonZeroInt draws (idx + 1) fuel else some (i, idx + 1)

/-- The `TryAgain` loop of `uniqueCoords`: retry `nonZeroInt` until the
candidate differs from every previously chosen coordinate. -/
def coordRetry (draws : ℕ → ℤ) (prev : List ℤ) : ℕ → ℕ → Option (ℤ × ℕ)
  | _, 0 => none
  | idx, fuel + 1 =>
    match nonZeroInt draws idx (fuel + 1) with
    | none => none
    | some (x, idx1) =>
      if x ∈ prev then coordRetry draws prev idx1 fuel else some (x, idx1)

/-- Outer loop of `uniqueCoords`: pick `k` further coordinates after the
already accepted `acc`. -/
def uniqueCoordsAux (draws : ℕ → ℤ) : ℕ → List ℤ → ℕ → ℕ → Option (List ℤ)
  | 0, acc, _, _ => some acc
  | k + 1, acc, idx, fuel =>
    match coordRetry draws acc idx fuel with
    | none => none
    | some (x, idx1) => uniqueCoordsAux draws k (acc ++ [x]) idx1 fuel

/-- `uniqueCoords(Q, rand, n)`: `n` pairwise-distinct nonzero field
elements drawn from the entropy stream. -/
def uniqueCoords (draws : ℕ → ℤ) (n fuel : ℕ) : Option (List ℤ) :=
  uniqueCoordsAux draws n [] 0 fuel

/-! ## The elliptic curve collaborator

The Go code is generic over `crypto/elliptic.Curve`; points travel as
coordinate pairs.  The interface is modelled as a structure of
operations on `ℤ × ℤ`; `N` is `Params().N`, the group order.  Scalars
are handed to `ScalarMult`/`ScalarBaseMult` as `big.Int.Bytes()`, i.e.
as the (nonnegative) integers the code built, so the model passes the
integers themselves. -/

/-- Abstract `elliptic.Curve`: point operations on coordinate pairs. -/
structure Curve where
  add : ℤ × ℤ → ℤ × ℤ → ℤ × ℤ
  scalarMult : ℤ × ℤ → ℤ → ℤ × ℤ
  scalarBaseMult : ℤ → ℤ × ℤ
  isOnCurve : ℤ → ℤ → Bool
  N : ℤ

/-- `commit(curve, poly)`: one base-point multiple per coefficient. -/
def commit (c : Curve) (poly : List ℤ) : List (ℤ × ℤ) :=
  poly.map c.scalarBaseMult

/-- The commitment list returned by `Split`:
`append(secretCommits, randomCommits...)`. -/
def splitCommits (c : Curve) (secretPoly randomPoly : List ℤ)
    (withBlinding : Bool) : List (ℤ × ℤ) :=
  commit c secretPoly ++ (if withBlinding then commit c randomPoly else [])

/-! ## Share.Verify -/

/-- Verification errors (src variant and spec variant combined):
`commitsNil` (\"commits cannot be nil\"), `lengthMismatch` (the src
variant's length complaint), `commitmentLengthMismatch` (the spec's
`CommitmentLengthMismatchError`), `notOnCurve`. -/
inductive VerifyError
  | commitsNil
  | lengthMismatch
  | commitmentLengthMismatch
  | notOnCurve
  deriving DecidableEq, Repr

/-- The accumulation loop shared by every Verify variant, translated from

      for k := 1; k < threshold; k++ {
        tk.Mul(tk, share.X); tk.Mod(tk, curve.Params().N)
        cktkX, cktkY := curve.ScalarMult(commits[k].X, commits[k].Y, tk.Bytes())
        acc.X, acc.Y = curve.Add(acc.X, acc.Y, cktkX, cktkY)
      }

`ks` is the list of loop indices, the state is `(acc, tk)`. -/
def verifyLoop (c : Curve) (x : ℤ) (cs : List (ℤ × ℤ)) :
    List ℕ → (ℤ × ℤ) × ℤ → (ℤ × ℤ) × ℤ
  | [], s => s
  | k :: ks, (acc, tk) =>
    let tk1 := tk * x % c.N
    verifyLoop c x cs ks (c.add acc (c.scalarMult (cs.getD k (0, 0)) tk1), tk1)

/-- `Share.Verify` as it stands in src/combine.go: commitment list must
have length `threshold + 1`, the share must lie on the curve, then the
Feldman accumulation starting from `commits[0]` is compared against
`ScalarBaseMult(share.Y)`. -/
def VerifySrc (c : Curve) (threshold : ℤ) (share : ℤ × ℤ)
    (commits : Option (List (ℤ × ℤ))) : Except VerifyError Bool :=
  match commits with
  | none => .error .commitsNil
  | some cs =>
    if (cs.length : ℤ) ≠ threshold + 1 then .error .lengthMismatch
    else if c.isOnCurve share.1 share.2 = false then .error .notOnCurve
    else
      let r := verifyLoop c share.1 cs (List.range' 1 (threshold - 1).toNat)
        (cs.headI, 1)
      let fiG := c.scalarBaseMult share.2
      .ok (decide (fiG = r.1))

/-- The heap effect of the src `Share.Verify` on the caller's commitment
list: `acc := commits[0]` copies the pointer, and each
`acc.X, acc.Y = curve.Add(...)` writes through it, so after a
successful validation the entry at index 0 holds the final
accumulator.  (When the loop body never runs, nothing is written.) -/
def VerifySrcCommitsAfter (c : Curve) (threshold : ℤ) (share : ℤ × ℤ)
    (cs : List (ℤ × ℤ)) : List (ℤ × ℤ) :=
  if (cs.length : ℤ) ≠ threshold + 1 then cs
  else if c.isOnCurve share.1 share.2 = false then cs
  else
    cs.set 0 (verifyLoop c share.1 cs (List.range' 1 (threshold - 1).toNat)
      (cs.headI, 1)).1

/-- Feldman accumulator over one commitment list half, `X^0` term taken
as the first commitment itself. -/
def feldmanAcc (c : Curve) (x : ℤ) (cs : List (ℤ × ℤ)) (t : ℕ) : ℤ × ℤ :=
  (verifyLoop c x cs (List.range' 1 (t - 1)) (cs.headI, 1)).1

/-- Modelled from the spec: the current `Share.Verify` (the
blinding-aware variant the in-src test calls with `WithBlinding()`) is
not under src/; only an older variant checking `threshold + 1` is.
Following spec section 4.6: the commitment list must be present and of
length exactly `threshold` (`threshold * 2` with blinding), else
`CommitmentLengthMismatchError`; the share must lie on the curve, else
`NotOnCurveError`; the Feldman accumulation runs over the first half,
with blinding additionally over the second half and the two
accumulated points added, and the result is compared against
`ScalarBaseMult(share.Y)`. -/
def VerifySpec (c : Curve) (threshold : ℤ) (share : ℤ × ℤ)
    (commits : Option (List (ℤ × ℤ))) (withBlinding : Bool) :
    Except VerifyError Bool :=
  match commits with
  | none => .error .commitmentLengthMismatch
  | some cs =>
    if (cs.length : ℤ) ≠ (if withBlinding then threshold * 2 else threshold) then
      .error .commitmentLengthMismatch
    else if c.isOnCurve share.1 share.2 = false then .error .notOnCurve
    else
      let acc := feldmanAcc c share.1 (cs.take threshold.toNat) threshold.toNat
      let fiG := c.scalarBaseMult share.2
      if withBlinding then
        let accB := feldmanAcc c share.1 (cs.drop threshold.toNat) threshold.toNat
        .ok (decide (fiG = c.add acc accB))
      else
        .ok (decide (fiG = acc))

/-- A toy instantiation of the external curve collaborator: the additive
group `(ZMod 5)²` presented on coordinate pairs, with base point
`(1, 0)`.  Used to evaluate the embedded code on concrete inputs. -/
def toyCurve : Curve where
  add p q := ((p.1 + q.1) % 5, (p.2 + q.2) % 5)
  scalarMult p k := (p.1 * k % 5, p.2 * k % 5)
  scalarBaseMult a := (a % 5, 0)
  isOnCurve _ _ := true
  N := 5

/-! ## Basic congruence and range lemmas for the evaluators -/

lemma int_emod_modEq (a M : ℤ) : a % M ≡ a [ZMOD M] :=
  Int.emod_emod_of_dvd a dvd_rfl

lemma polySum_append (u : List ℤ) (c x : ℤ) :
    polySum (u ++ [c]) x = polySum u x + c * x ^ u.length := by
  induction u with
  | nil => simp [polySum]
  | cons a u ih => simp [polySum, ih]; ring

lemma horner_foldl (M x : ℤ) :
    ∀ (l : List ℤ) (acc : ℤ),
      l.foldl (fun y a => (y * x % M + a) % M) acc ≡
        acc * x ^ l.length + polySum l.reverse x [ZMOD M] := by
  intro l
  induction l with
  | nil => intro acc; simp [polySum]
  | cons a l ih =>
    intro acc
    have h1 : (acc * x % M + a) % M ≡ acc * x + a [ZMOD M] :=
      (int_emod_modEq _ M).trans ((int_emod_modEq (acc * x) M).add_right a)
    have h2 := (h1.mul_right (x ^ l.length)).add_right (polySum l.reverse x)
    have e : (acc * x + a) * x ^ l.length + polySum l.reverse x =
        acc * x ^ (a :: l).length + polySum ((a :: l).reverse) x := by
      rw [List.reverse_cons, polySum_append, List.length_cons, List.length_reverse]
      ring
    calc (a :: l).foldl (fun y a => (y * x % M + a) % M) acc
        = l.foldl (fun y a => (y * x % M + a) % M) ((acc * x % M + a) % M) := rfl
      _ ≡ (acc * x % M + a) % M * x ^ l.length + polySum l.reverse x [ZMOD M] := ih _
      _ ≡ (acc * x + a) * x ^ l.length + polySum l.reverse x [ZMOD M] := h2
      _ = acc * x ^ (a :: l).length + polySum ((a :: l).reverse) x := e

lemma evaluatePolynomial_modEq (M : ℤ) (poly : List ℤ) (x : ℤ) :
    evaluatePolynomial M poly x ≡ polySum poly x [ZMOD M] := by
  rcases h : poly.reverse with - | ⟨c, rest⟩
  · have hp : poly = [] := by simpa using congrArg List.reverse h
    simp [evaluatePolynomial, hp, polySum]
  · have hp : poly = rest.reverse ++ [c] := by
      have := congrArg List.reverse h
      simpa using this
    have e : c * x ^ rest.length + polySum rest.reverse x = polySum poly x := by
      rw [hp, polySum_append, List.length_reverse]
      ring
    calc evaluatePolynomial M poly x
        = rest.foldl (fun y a => (y * x % M + a) % M) c := by
          simp [evaluatePolynomial, h]
      _ ≡ c * x ^ rest.length + polySum rest.reverse x [ZMOD M] := horner_foldl M x rest c
      _ = polySum poly x := e

lemma old_foldl (M x : ℤ) :
    ∀ (l : List ℤ) (y Xi : ℤ),
      (l.foldl
        (fun acc ai =>
          let Xi1 := acc.2 * x % M
          ((acc.1 + ai * Xi1 % M) % M, Xi1)) (y, Xi)).1 ≡
        y + Xi * x * polySum l x [ZMOD M] := by
  intro l
  induction l with
  | nil => intro y Xi; simp [polySum]
  | cons a l ih =>
    intro y Xi
    have hterm : a * (Xi * x % M) % M ≡ a * (Xi * x) [ZMOD M] :=
      (int_emod_modEq _ M).trans ((int_emod_modEq (Xi * x) M).mul_left a)
    have h1 : (y + a * (Xi * x % M) % M) % M ≡ y + a * (Xi * x) [ZMOD M] :=
      (int_emod_modEq _ M).trans (hterm.add_left y)
    have h2 : (Xi * x % M) * x * polySum l x ≡ Xi * x * x * polySum l x [ZMOD M] :=
      ((int_emod_modEq (Xi * x) M).mul_right x).mul_right (polySum l x)
    have e : y + a * (Xi * x) + Xi * x * x * polySum l x =
        y + Xi * x * polySum (a :: l) x := by
      show _ = y + Xi * x * (a + x * polySum l x)
      ring
    calc ((a :: l).foldl
            (fun acc ai =>
              let Xi1 := acc.2 * x % M
              ((acc.1 + ai * Xi1 % M) % M, Xi1)) (y, Xi)).1
        ≡ (y + a * (Xi * x % M) % M) % M + (Xi * x % M) * x * polySum l x [ZMOD M] :=
          ih _ _
      _ ≡ y + a * (Xi * x) + Xi * x * x * polySum l x [ZMOD M] := h1.add h2
      _ = y + Xi * x * polySum (a :: l) x := e

lemma evaluatePolynomialOld_modEq (M : ℤ) (poly : List ℤ) (x : ℤ) :
    evaluatePolynomialOld M poly x ≡ polySum poly x [ZMOD M] := by
  rcases poly with - | ⟨p0, rest⟩
  · simp [evaluatePolynomialOld, polySum]
  · have := old_foldl M x rest p0 1
    calc evaluatePolynomialOld M (p0 :: rest) x
        ≡ p0 + 1 * x * polySum rest x [ZMOD M] := this
      _ = polySum (p0 :: rest) x := by show _ = p0 + x * polySum rest x; ring

lemma horner_foldl_bounds (M x : ℤ) (hM : 0 < M) :
    ∀ (l : List ℤ) (acc : ℤ), l ≠ [] →
      0 ≤ l.foldl (fun y a => (y * x % M + a) % M) acc ∧
        l.foldl (fun y a => (y * x % M + a) % M) acc < M := by
  intro l
  induction l with
  | nil => intro acc h; exact absurd rfl h
  | cons a l ih =>
    intro acc _
    rcases l with - | ⟨b, l⟩
    · exact ⟨Int.emod_nonneg _ (by omega), Int.emod_lt_of_pos _ hM⟩
    · exact ih _ (by simp)

lemma old_foldl_bounds (M x : ℤ) (hM : 0 < M) :
    ∀ (l : List ℤ) (y Xi : ℤ), l ≠ [] →
      0 ≤ (l.foldl
            (fun acc ai =>
              let Xi1 := acc.2 * x % M
              ((acc.1 + ai * Xi1 % M) % M, Xi1)) (y, Xi)).1 ∧
        (l.foldl
            (fun acc ai =>
              let Xi1 := acc.2 * x % M
              ((acc.1 + ai * Xi1 % M) % M, Xi1)) (y, Xi)).1 < M := by
  intro l
  induction l with
  | nil => intro y Xi h; exact absurd rfl h
  | cons a l ih =>
    intro y Xi _
    rcases l with - | ⟨b, l⟩
    · exact ⟨Int.emod_nonneg _ (by omega), Int.emod_lt_of_pos _ hM⟩
    · exact ih _ _ (by simp)

lemma evaluatePolynomial_bounds (M : ℤ) (poly : List ℤ) (x : ℤ) (hM : 0 < M)
    (hlen : 2 ≤ poly.length) :
    0 ≤ evaluatePolynomial M poly x ∧ evaluatePolynomial M poly x < M := by
  rcases h : poly.reverse with - | ⟨c, rest⟩
  · have : poly = [] := by simpa using congrArg List.reverse h
    simp [this] at hlen
  · have hrest : rest ≠ [] := by
      intro hr
      subst hr
      have hl := congrArg List.length h
      simp at hl
      omega
    have := horner_foldl_bounds M x hM rest c
    simpa [evaluatePolynomial, h] using this hrest

lemma evaluatePolynomialOld_bounds (M : ℤ) (poly : List ℤ) (x : ℤ) (hM : 0 < M)
    (hlen : 2 ≤ poly.length) :
    0 ≤ evaluatePolynomialOld M poly x ∧ evaluatePolynomialOld M poly x < M := by
  rcases poly with - | ⟨p0, rest⟩
  · simp at hlen
  · have hrest : rest ≠ [] := by
      intro hr
      rw [hr] at hlen
      simp at hlen
    have := old_foldl_bounds M x hM rest p0 1 hrest
    simpa [evaluatePolynomialOld] using this

/-! ## Soundness of the coordinate sampler -/

lemma nonZeroInt_sound (draws : ℕ → ℤ) (Q : ℤ)
    (hdraws : ∀ i, 0 ≤ draws i ∧ draws i < Q) :
    ∀ (fuel idx : ℕ) (x : ℤ) (idx1 : ℕ),
      nonZeroInt draws idx fuel = some (x, idx1) → 1 ≤ x ∧ x < Q := by
  intro fuel
  induction fuel with
  | zero => intro idx x idx1 h; simp [nonZeroInt] at h
  | succ fuel ih =>
    intro idx x idx1 h
    rw [nonZeroInt] at h
    by_cases h0 : draws idx = 0
    · exact ih _ _ _ (by simpa [h0] using h)
    · rw [if_neg h0] at h
      have hx : draws idx = x := congrArg Prod.fst (Option.some.inj h)
      rcases hdraws idx with ⟨hd0, hd1⟩
      omega

lemma coordRetry_sound (draws : ℕ → ℤ) (Q : ℤ) (prev : List ℤ)
    (hdraws : ∀ i, 0 ≤ draws i ∧ draws i < Q) :
    ∀ (fuel idx : ℕ) (x : ℤ) (idx1 : ℕ),
      coordRetry draws prev idx fuel = some (x, idx1) →
        (1 ≤ x ∧ x < Q) ∧ x ∉ prev := by
  intro fuel
  induction fuel with
  | zero => intro idx x idx1 h; simp [coordRetry] at h
  | succ fuel ih =>
    intro idx x idx1 h
    rw [coordRetry] at h
    rcases hz : nonZeroInt draws idx (fuel + 1) with - | ⟨z, idxz⟩
    · rw [hz] at h; exact absurd h (by simp)
    · rw [hz] at h
      by_cases hmem : z ∈ prev
      · exact ih _ _ _ (by simpa [hmem] using h)
      · have hx : x = z := by
          simp only [hmem, if_false] at h
          cases h
          rfl
        subst hx
        exact ⟨nonZeroInt_sound draws Q hdraws _ _ _ _ hz, hmem⟩

lemma uniqueCoordsAux_sound (draws : ℕ → ℤ) (Q : ℤ)
    (hdraws : ∀ i, 0 ≤ draws i ∧ draws i < Q) :
    ∀ (k : ℕ) (acc : List ℤ) (idx fuel : ℕ) (xs : List ℤ),
      uniqueCoordsAux draws k acc idx fuel = some xs →
      acc.Pairwise (· ≠ ·) → (∀ a ∈ acc, 1 ≤ a ∧ a < Q) →
        xs.length = acc.length + k ∧ xs.Pairwise (· ≠ ·) ∧
          ∀ a ∈ xs, 1 ≤ a ∧ a < Q := by
  intro k
  induction k with
  | zero =>
    intro acc idx fuel xs h h1 h2
    rw [uniqueCoordsAux] at h
    cases h
    exact ⟨by simp, h1, h2⟩
  | succ k ih =>
    intro acc idx fuel xs h h1 h2
    rw [uniqueCoordsAux] at h
    rcases hr : coordRetry draws acc idx fuel with - | ⟨x, idx1⟩
    · rw [hr] at h; exact absurd h (by simp)
    · rw [hr] at h
      rcases coordRetry_sound draws Q acc hdraws _ _ _ _ hr with ⟨hxQ, hxnot⟩
      have h1a : (acc ++ [x]).Pairwise (· ≠ ·) := by
        rw [List.pairwise_append]
        exact ⟨h1, by simp, by
          intro a ha b hb
          simp at hb
          subst hb
          intro hab
          exact hxnot (hab ▸ ha)⟩
      have h2a : ∀ a ∈ acc ++ [x], 1 ≤ a ∧ a < Q := by
        intro a ha
        rcases List.mem_append.mp ha with h | h
        · exact h2 a h
        · simp at h; subst h; exact hxQ
      rcases ih _ _ _ _ h h1a h2a with ⟨hl, hp, hq⟩
      refine ⟨?_, hp, hq⟩
      rw [List.length_append] at hl
      simp at hl
      omega

/-! ## Claim theorems (first batch) -/

/-- C10: `Combine` applied to an empty share list performs no length
check, leaves the zero accumulator untouched (the Lagrange loops never
run, so the missing-inverse error branch is unreachable), and returns
the value `0` with no error. -/
theorem combine_empty_ok (Q : ℤ) : Combine Q [] = some 0 := rfl

/-- C6 (failing input): `Split` validation accepts the out-of-range
secret `-1` (with `Q = 7`, `parts = threshold = 1`) because the source
only tests `secret.Cmp(Q) >= 0`, and the run returns a share list, in
contradiction with the claimed rejection of every secret outside
`[0, Q)`.  The first two conjuncts evaluate the embedded code at the
failing input; the last records that the input is indeed outside the
documented range. -/
theorem split_validate_accepts_negative_secret :
    splitValidate 7 (some (-1)) 1 1 = none ∧
      SplitRun 5 7 (some (-1)) 1 1 [-1] [] [2] false = .ok [(2, -1)] ∧
      ¬(0 ≤ (-1 : ℤ)) :=
  ⟨rfl, rfl, by decide⟩

/-- C3 (failing input): on the toy curve instance, verifying the share
`(1, 1)` with `threshold = 2` against the three commitments
`[(1,1), (2,2), (5,5)]` passes validation (so the accumulation loop
runs), and afterwards the caller's commitment list holds the
accumulated point `(3, 3)` in place of the first commitment: the
`acc := commits[0]` aliasing writes through to the caller's data,
refuting the claim that `Verify` leaves every entry unchanged. -/
theorem verify_src_mutates_first_commitment :
    VerifySrc toyCurve 2 (1, 1) (some [(1, 1), (2, 2), (5, 5)]) = .ok false ∧
      VerifySrcCommitsAfter toyCurve 2 (1, 1) [(1, 1), (2, 2), (5, 5)] =
        [(3, 3), (2, 2), (5, 5)] ∧
      ¬VerifySrcCommitsAfter toyCurve 2 (1, 1) [(1, 1), (2, 2), (5, 5)] =
        [(1, 1), (2, 2), (5, 5)] :=
  ⟨rfl, by decide, by decide⟩

/-- C7: whenever `uniqueCoords` succeeds (for any count `n`), it returns
exactly `n` coordinates, the x-coordinates of the shares a successful
`Split` builds from them are exactly those coordinates, and they are
pairwise distinct, nonzero, and inside `[1, Q)` — given the contract
of the external `cryptorand.Int` draws. -/
theorem unique_coords_distinct_nonzero (draws : ℕ → ℤ) (Q : ℤ)
    (n fuel : ℕ) (xs : List ℤ)
    (N : ℤ) (secretPoly randomPoly : List ℤ) (wb : Bool)
    (hdraws : ∀ i, 0 ≤ draws i ∧ draws i < Q)
    (hxs : uniqueCoords draws n fuel = some xs) :
    xs.length = n ∧
      (splitShares N Q secretPoly randomPoly xs wb).map Prod.fst = xs ∧
      xs.Pairwise (· ≠ ·) ∧ ∀ x ∈ xs, 1 ≤ x ∧ x < Q := by
  rcases uniqueCoordsAux_sound draws Q hdraws n [] 0 fuel xs hxs (by simp)
    (by simp) with ⟨hl, hp, hq⟩
  refine ⟨by simpa using hl, ?_, hp, hq⟩
  simp [splitShares, List.map_map, Function.comp_def]

/-- Witness for C7 at a concrete entropy stream. -/
theorem unique_coords_distinct_nonzero_witness :
    uniqueCoords (fun i => (i : ℤ) % 3) 2 5 = some [1, 2] ∧
      [1, 2].length = 2 ∧
      (splitShares 5 3 [1] [] [1, 2] false).map Prod.fst = [1, 2] ∧
      ([1, 2] : List ℤ).Pairwise (· ≠ ·) ∧
      ∀ x ∈ ([1, 2] : List ℤ), 1 ≤ x ∧ x < 3 := by
  refine ⟨by decide, ?_⟩
  exact unique_coords_distinct_nonzero (fun i => (i : ℤ) % 3) 3 2 5 [1, 2] 5 [1] [] false
    (fun i => ⟨Int.emod_nonneg _ (by decide), Int.emod_lt_of_pos _ (by decide)⟩)
    (by decide)

/-- C8: the current Horner evaluator and the historical
power-accumulation evaluator agree on every nonempty coefficient list,
every evaluation point, and every modulus `M ≥ 1` (for a lone constant
term both return it unreduced; otherwise both return the reduced
polynomial value). -/
theorem evaluators_agree (M : ℤ) (hM : 1 ≤ M) (poly : List ℤ)
    (hpoly : poly ≠ []) (x : ℤ) :
    evaluatePolynomial M poly x = evaluatePolynomialOld M poly x := by
  rcases poly with - | ⟨p0, rest⟩
  · exact absurd rfl hpoly
  · rcases rest with - | ⟨p1, rest⟩
    · simp [evaluatePolynomial, evaluatePolynomialOld]
    · have hM0 : 0 < M := by omega
      have hlen : 2 ≤ (p0 :: p1 :: rest).length := by simp
      have h1 := evaluatePolynomial_modEq M (p0 :: p1 :: rest) x
      have h2 := evaluatePolynomialOld_modEq M (p0 :: p1 :: rest) x
      have h3 : evaluatePolynomial M (p0 :: p1 :: rest) x ≡
          evaluatePolynomialOld M (p0 :: p1 :: rest) x [ZMOD M] :=
        h1.trans h2.symm
      rcases evaluatePolynomial_bounds M (p0 :: p1 :: rest) x hM0 hlen with ⟨b1, b2⟩
      rcases evaluatePolynomialOld_bounds M (p0 :: p1 :: rest) x hM0 hlen with ⟨b3, b4⟩
      have := h3
      rw [Int.ModEq] at this
      rwa [Int.emod_eq_of_lt b1 b2, Int.emod_eq_of_lt b3 b4] at this

/-- Witness for C8 at a concrete list and modulus. -/
theorem evaluators_agree_witness :
    (1 : ℤ) ≤ 5 ∧ ([3, 1] : List ℤ) ≠ [] ∧
      evaluatePolynomial 5 [3, 1] 2 = evaluatePolynomialOld 5 [3, 1] 2 :=
  ⟨by decide, by decide, evaluators_agree 5 (by decide) [3, 1] (by decide) 2⟩

/-! ## Bridging `Combine` with Lagrange interpolation over `ZMod p` -/

lemma intCast_emod_zmod (p : ℕ) (a : ℤ) :
    ((a % (p : ℤ) : ℤ) : ZMod p) = (a : ZMod p) := by
  rw [ZMod.intCast_eq_intCast_iff]
  exact int_emod_modEq a p

lemma modInverse_some (p : ℕ) [NeZero p] (g : ℤ) (u : ZMod p)
    (hu : (g : ZMod p) * u = 1) :
    ∃ d : ℤ, modInverse g (p : ℤ) = some d ∧ ((d : ℤ) : ZMod p) = u := by
  have hmem : u.val ∈ List.range ((p : ℤ)).toNat := by
    rw [Int.toNat_natCast, List.mem_range]
    exact u.val_lt
  have hpred : g * (u.val : ℤ) % (p : ℤ) = 1 % (p : ℤ) := by
    rw [← ZMod.intCast_eq_intCast_iff']
    push_cast
    rw [ZMod.natCast_val, ZMod.cast_id]
    exact hu
  have hsome : ((List.range ((p : ℤ)).toNat).find? fun d : ℕ =>
      g * (d : ℤ) % (p : ℤ) = 1 % (p : ℤ)).isSome := by
    rw [List.find?_isSome]
    exact ⟨u.val, hmem, by simpa using hpred⟩
  rcases Option.isSome_iff_exists.mp hsome with ⟨d, hd⟩
  refine ⟨(d : ℤ), ?_, ?_⟩
  · rw [modInverse, hd]
    rfl
  · have hprop : g * (d : ℤ) % (p : ℤ) = 1 % (p : ℤ) := by
      simpa using List.find?_some hd
    have hcast : (g : ZMod p) * ((d : ℤ) : ZMod p) = 1 := by
      have := (ZMod.intCast_eq_intCast_iff' (g * (d : ℤ)) 1 p).mpr hprop
      push_cast at this
      simpa using this
    calc ((d : ℤ) : ZMod p)
        = ((d : ℤ) : ZMod p) * ((g : ZMod p) * u) := by rw [hu, mul_one]
      _ = ((g : ZMod p) * ((d : ℤ) : ZMod p)) * u := by ring
      _ = u := by rw [hcast, one_mul]

/-- The Lagrange basis product `Π x_j * (x_j - x_i)⁻¹` over one list of
shares, in `ZMod p`. -/
def lagProd (p : ℕ) (xi : ℤ) (l : List (ℤ × ℤ)) : ZMod p :=
  (l.map fun s => (s.1 : ZMod p) * ((s.1 : ZMod p) - (xi : ZMod p))⁻¹).prod

/-- The Lagrange interpolation sum at 0 accumulated by `combineOuter`,
parameterised by the prefix of shares already consumed. -/
def lagSum (p : ℕ) : List (ℤ × ℤ) → List (ℤ × ℤ) → ZMod p
  | _, [] => 0
  | done, si :: rest =>
    (si.2 : ZMod p) * (lagProd p si.1 done * lagProd p si.1 rest) +
      lagSum p (done ++ [si]) rest

lemma combineInner_step (p : ℕ) (hp : p.Prime) (xi : ℤ) (i j : ℕ)
    (hne : j ≠ i) (s : ℤ × ℤ) (rest : List (ℤ × ℤ)) (basis : ℤ)
    (hs : (s.1 : ZMod p) ≠ (xi : ZMod p)) :
    ∃ d : ℤ, combineInner (p : ℤ) xi i j (s :: rest) basis =
        combineInner (p : ℤ) xi i (j + 1) rest (basis * (s.1 * d % (p : ℤ)) % (p : ℤ)) ∧
      ((basis * (s.1 * d % (p : ℤ)) % (p : ℤ) : ℤ) : ZMod p) =
        (basis : ZMod p) * ((s.1 : ZMod p) * ((s.1 : ZMod p) - (xi : ZMod p))⁻¹) := by
  haveI := Fact.mk hp
  have hc : ((s.1 - xi : ℤ) : ZMod p) ≠ 0 := by
    push_cast
    exact sub_ne_zero_of_ne hs
  have hu : (((s.1 - xi) % (p : ℤ) : ℤ) : ZMod p) *
      ((s.1 : ZMod p) - (xi : ZMod p))⁻¹ = 1 := by
    rw [intCast_emod_zmod]
    push_cast
    exact mul_inv_cancel₀ (by push_cast at hc; exact hc)
  rcases modInverse_some p ((s.1 - xi) % (p : ℤ))
    ((s.1 : ZMod p) - (xi : ZMod p))⁻¹ hu with ⟨d, hd, hdc⟩
  refine ⟨d, ?_, ?_⟩
  · rw [combineInner, if_neg hne, hd]
  · push_cast [intCast_emod_zmod]
    rw [hdc]

lemma combineInner_noskip (p : ℕ) (hp : p.Prime) (xi : ℤ) (i : ℕ) :
    ∀ (rest : List (ℤ × ℤ)) (j : ℕ) (basis : ℤ),
      (∀ k < rest.length, j + k ≠ i) →
      (∀ s ∈ rest, (s.1 : ZMod p) ≠ (xi : ZMod p)) →
      ∃ b, combineInner (p : ℤ) xi i j rest basis = some b ∧
        (b : ZMod p) = (basis : ZMod p) * lagProd p xi rest := by
  intro rest
  induction rest with
  | nil =>
    intro j basis _ _
    exact ⟨basis, rfl, by simp [lagProd]⟩
  | cons s rest ih =>
    intro j basis hj hd
    have hne : j ≠ i := by
      have := hj 0 (by simp)
      simpa using this
    rcases combineInner_step p hp xi i j hne s rest basis
      (hd s (by simp)) with ⟨d, hstep, hcast⟩
    rcases ih (j + 1)
      (basis * (s.1 * d % (p : ℤ)) % (p : ℤ))
      (fun k hk => by
        have := hj (k + 1) (by simpa using Nat.succ_lt_succ hk)
        omega)
      (fun t ht => hd t (by simp [ht])) with ⟨b, hb, hbc⟩
    refine ⟨b, by rw [hstep, hb], ?_⟩
    rw [hbc, hcast]
    simp only [lagProd, List.map_cons, List.prod_cons]
    ring

lemma combineInner_through (p : ℕ) (hp : p.Prime) (xi : ℤ) (i : ℕ) :
    ∀ (L1 : List (ℤ × ℤ)) (si : ℤ × ℤ) (L2 : List (ℤ × ℤ)) (j : ℕ) (basis : ℤ),
      j + L1.length = i →
      (∀ s ∈ L1, (s.1 : ZMod p) ≠ (xi : ZMod p)) →
      (∀ s ∈ L2, (s.1 : ZMod p) ≠ (xi : ZMod p)) →
      ∃ b, combineInner (p : ℤ) xi i j (L1 ++ si :: L2) basis = some b ∧
        (b : ZMod p) = (basis : ZMod p) * (lagProd p xi L1 * lagProd p xi L2) := by
  intro L1
  induction L1 with
  | nil =>
    intro si L2 j basis hj h1 h2
    have hji : j = i := by simpa using hj
    subst hji
    have hskip : combineInner (p : ℤ) xi j j ([] ++ si :: L2) basis =
        combineInner (p : ℤ) xi j (j + 1) L2 basis := by
      rw [List.nil_append, combineInner, if_pos rfl]
    rcases combineInner_noskip p hp xi j L2 (j + 1) basis
      (fun k hk => by omega) h2 with ⟨b, hb, hbc⟩
    exact ⟨b, by rw [hskip, hb], by rw [hbc]; simp [lagProd]⟩
  | cons s L1 ih =>
    intro si L2 j basis hj h1 h2
    have hne : j ≠ i := by simp at hj; omega
    rcases combineInner_step p hp xi i j hne s (L1 ++ si :: L2) basis
      (h1 s (by simp)) with ⟨d, hstep, hcast⟩
    rcases ih si L2 (j + 1)
      (basis * (s.1 * d % (p : ℤ)) % (p : ℤ))
      (by simp at hj ⊢; omega)
      (fun t ht => h1 t (by simp [ht])) h2 with ⟨b, hb, hbc⟩
    refine ⟨b, ?_, ?_⟩
    · rw [List.cons_append]
      rw [hstep, hb]
    · rw [hbc, hcast]
      simp only [lagProd, List.map_cons, List.prod_cons]
      ring

lemma pairwise_decomp (p : ℕ) (L1 : List (ℤ × ℤ)) (si : ℤ × ℤ)
    (L2 : List (ℤ × ℤ))
    (hx : (L1 ++ si :: L2).Pairwise
      (fun a b : ℤ × ℤ => (a.1 : ZMod p) ≠ (b.1 : ZMod p))) :
    (∀ s ∈ L1, (s.1 : ZMod p) ≠ (si.1 : ZMod p)) ∧
      ∀ s ∈ L2, (s.1 : ZMod p) ≠ (si.1 : ZMod p) := by
  rw [List.pairwise_append] at hx
  obtain ⟨-, hcons, hcross⟩ := hx
  rw [List.pairwise_cons] at hcons
  exact ⟨fun s hs => hcross s hs si (by simp),
    fun s hs => (hcons.1 s hs).symm⟩

lemma combineOuter_bridge (p : ℕ) (hp : p.Prime) :
    ∀ (L2 L1 : List (ℤ × ℤ)) (acc : ℤ),
      ((L1 ++ L2).Pairwise
        (fun a b : ℤ × ℤ => (a.1 : ZMod p) ≠ (b.1 : ZMod p))) →
      0 ≤ acc → acc < (p : ℤ) →
      ∃ s, combineOuter (p : ℤ) (L1 ++ L2) L1.length L2 acc = some s ∧
        0 ≤ s ∧ s < (p : ℤ) ∧
        (s : ZMod p) = (acc : ZMod p) + lagSum p L1 L2 := by
  intro L2
  induction L2 with
  | nil =>
    intro L1 acc hx h0 h1
    exact ⟨acc, rfl, h0, h1, by simp [lagSum]⟩
  | cons si L2 ih =>
    intro L1 acc hx h0 h1
    obtain ⟨hd1, hd2⟩ := pairwise_decomp p L1 si L2 hx
    rcases combineInner_through p hp si.1 L1.length L1 si L2 0 1 (by simp)
      hd1 hd2 with ⟨b, hb, hbc⟩
    have hp0 : (0 : ℤ) < (p : ℤ) := by exact_mod_cast hp.pos
    set acc1 : ℤ := (acc + si.2 * b % (p : ℤ)) % (p : ℤ) with hacc1
    have houter : combineOuter (p : ℤ) (L1 ++ si :: L2) L1.length (si :: L2) acc =
        combineOuter (p : ℤ) (L1 ++ si :: L2) (L1.length + 1) L2 acc1 := by
      rw [combineOuter, hb]
    have hx1 : ((L1 ++ [si]) ++ L2).Pairwise
        (fun a b : ℤ × ℤ => (a.1 : ZMod p) ≠ (b.1 : ZMod p)) := by
      rw [List.append_assoc, List.singleton_append]
      exact hx
    rcases ih (L1 ++ [si]) acc1 hx1 (Int.emod_nonneg _ (by omega))
      (Int.emod_lt_of_pos _ hp0) with ⟨s, hs, hs0, hs1, hsc⟩
    rw [List.append_assoc, List.singleton_append, List.length_append] at hs
    simp only [List.length_cons, List.length_nil, Nat.zero_add] at hs
    refine ⟨s, ?_, hs0, hs1, ?_⟩
    · rw [houter]
      exact hs
    · rw [hsc, lagSum]
      have hacc1c : ((acc1 : ℤ) : ZMod p) =
          (acc : ZMod p) + (si.2 : ZMod p) * ((b : ℤ) : ZMod p) := by
        rw [hacc1]
        push_cast [intCast_emod_zmod]
        ring
      rw [hacc1c, hbc]
      push_cast
      ring

lemma combine_bridge (p : ℕ) (hp : p.Prime) (shares : List (ℤ × ℤ))
    (hx : shares.Pairwise
      (fun a b : ℤ × ℤ => (a.1 : ZMod p) ≠ (b.1 : ZMod p))) :
    ∃ s, Combine (p : ℤ) shares = some s ∧ 0 ≤ s ∧ s < (p : ℤ) ∧
      (s : ZMod p) = lagSum p [] shares := by
  have hp0 : (0 : ℤ) < (p : ℤ) := by exact_mod_cast hp.pos
  rcases combineOuter_bridge p hp shares [] 0 (by simpa using hx)
    le_rfl hp0 with ⟨s, hs, hs0, hs1, hsc⟩
  exact ⟨s, by simpa [Combine] using hs, hs0, hs1, by simpa using hsc⟩

/-! ## From the accumulated sum to Lagrange interpolation at 0 -/

lemma list_map_prod {α M : Type*} [CommMonoid M] (f : α → M) (d : α) :
    ∀ L : List α, (L.map f).prod = ∏ j ∈ Finset.range L.length, f (L.getD j d) := by
  intro L
  induction L with
  | nil => simp
  | cons a L ih =>
    rw [List.map_cons, List.prod_cons, List.length_cons, Finset.prod_range_succ']
    simp only [List.getD_cons_succ, List.getD_cons_zero]
    rw [← ih]
    exact (mul_comm _ _)

lemma erase_range_split (i n : ℕ) (hi : i < n) :
    (Finset.range n).erase i = Finset.range i ∪ Finset.Ico (i + 1) n := by
  ext j
  simp only [Finset.mem_erase, Finset.mem_range, Finset.mem_union, Finset.mem_Ico]
  omega

lemma prod_erase_range {M : Type*} [CommMonoid M] (g : ℕ → M) (i n : ℕ)
    (hi : i < n) :
    ∏ j ∈ (Finset.range n).erase i, g j =
      (∏ j ∈ Finset.range i, g j) * ∏ j ∈ Finset.Ico (i + 1) n, g j := by
  have hdisj : Disjoint (Finset.range i) (Finset.Ico (i + 1) n) := by
    refine Finset.disjoint_left.mpr ?_
    intro a ha hb
    simp only [Finset.mem_range] at ha
    simp only [Finset.mem_Ico] at hb
    omega
  rw [erase_range_split i n hi, Finset.prod_union hdisj]

lemma getD_decomp_mid {α : Type*} (L1 : List α) (si : α) (L2 : List α) (d : α) :
    (L1 ++ si :: L2).getD L1.length d = si := by
  rw [List.getD_append_right _ _ _ _ le_rfl]
  simp

lemma getD_decomp_right {α : Type*} (L1 : List α) (si : α) (L2 : List α)
    (d : α) (k : ℕ) :
    (L1 ++ si :: L2).getD (L1.length + 1 + k) d = L2.getD k d := by
  rw [List.getD_append_right _ _ _ _ (by omega)]
  have h : L1.length + 1 + k - L1.length = k + 1 := by omega
  rw [h, List.getD_cons_succ]

lemma prod_erase_split (p : ℕ) (xi : ℤ) (L1 : List (ℤ × ℤ)) (si : ℤ × ℤ)
    (L2 : List (ℤ × ℤ)) :
    ∏ j ∈ (Finset.range (L1 ++ si :: L2).length).erase L1.length,
      ((((L1 ++ si :: L2).getD j (0, 0)).1 : ZMod p) *
        ((((L1 ++ si :: L2).getD j (0, 0)).1 : ZMod p) - (xi : ZMod p))⁻¹) =
      lagProd p xi L1 * lagProd p xi L2 := by
  have hi : L1.length < (L1 ++ si :: L2).length := by simp
  rw [prod_erase_range _ _ _ hi]
  congr 1
  · rw [lagProd, list_map_prod _ (0, 0)]
    refine Finset.prod_congr rfl ?_
    intro j hj
    rw [Finset.mem_range] at hj
    rw [List.getD_append _ _ _ _ hj]
  · rw [Finset.prod_Ico_eq_prod_range]
    have hn : (L1 ++ si :: L2).length - (L1.length + 1) = L2.length := by
      simp only [List.length_append, List.length_cons]
      omega
    rw [hn, lagProd, list_map_prod _ (0, 0)]
    refine Finset.prod_congr rfl ?_
    intro k hk
    rw [getD_decomp_right]

lemma lagSum_eq_sum (p : ℕ) :
    ∀ (L2 L1 : List (ℤ × ℤ)),
      lagSum p L1 L2 =
        ∑ i ∈ Finset.Ico L1.length (L1 ++ L2).length,
          (((L1 ++ L2).getD i (0, 0)).2 : ZMod p) *
            ∏ j ∈ (Finset.range (L1 ++ L2).length).erase i,
              ((((L1 ++ L2).getD j (0, 0)).1 : ZMod p) *
                ((((L1 ++ L2).getD j (0, 0)).1 : ZMod p) -
                  (((L1 ++ L2).getD i (0, 0)).1 : ZMod p))⁻¹) := by
  intro L2
  induction L2 with
  | nil => intro L1; simp [lagSum]
  | cons si L2 ih =>
    intro L1
    rw [lagSum]
    have hlt : L1.length < (L1 ++ si :: L2).length := by simp
    rw [Finset.sum_eq_sum_Ico_succ_bot hlt]
    rw [getD_decomp_mid L1 si L2 (0, 0)]
    rw [prod_erase_split p si.1 L1 si L2]
    have hrest := ih (L1 ++ [si])
    rw [List.append_assoc, List.singleton_append] at hrest
    have hlen : (L1 ++ [si]).length = L1.length + 1 := by simp
    rw [hlen] at hrest
    rw [hrest]

/-- The polynomial over `ZMod p` whose coefficients are the casts of a
coefficient list.  (A proof-side object only, hence noncomputable.) -/
noncomputable def polyOfList (p : ℕ) (f : List ℤ) : Polynomial (ZMod p) :=
  ∑ j ∈ Finset.range f.length,
    Polynomial.C ((f.getD j 0 : ℤ) : ZMod p) * Polynomial.X ^ j

lemma polyOfList_degree_lt (p : ℕ) (f : List ℤ) :
    (polyOfList p f).degree < (f.length : WithBot ℕ) := by
  rw [polyOfList, ← Fin.sum_univ_eq_sum_range
    (fun j => Polynomial.C ((f.getD j 0 : ℤ) : ZMod p) * Polynomial.X ^ j)]
  exact Polynomial.degree_sum_fin_lt _

lemma sum_coef_eq_polySum (p : ℕ) (x : ℤ) :
    ∀ f : List ℤ,
      ∑ j ∈ Finset.range f.length,
          ((f.getD j 0 : ℤ) : ZMod p) * ((x : ℤ) : ZMod p) ^ j =
        ((polySum f x : ℤ) : ZMod p) := by
  intro f
  induction f with
  | nil => simp [polySum]
  | cons a l ih =>
    rw [List.length_cons, Finset.sum_range_succ']
    simp only [List.getD_cons_succ, List.getD_cons_zero, pow_zero, mul_one]
    have hshift : ∑ j ∈ Finset.range l.length,
        ((l.getD j 0 : ℤ) : ZMod p) * ((x : ℤ) : ZMod p) ^ (j + 1) =
        (∑ j ∈ Finset.range l.length,
          ((l.getD j 0 : ℤ) : ZMod p) * ((x : ℤ) : ZMod p) ^ j) *
          ((x : ℤ) : ZMod p) := by
      rw [Finset.sum_mul]
      refine Finset.sum_congr rfl ?_
      intro j hj
      rw [pow_succ]
      ring
    rw [hshift, ih]
    rw [show polySum (a :: l) x = a + x * polySum l x from rfl]
    push_cast
    ring

lemma polyOfList_eval_cast (p : ℕ) (f : List ℤ) (x : ℤ) :
    (polyOfList p f).eval ((x : ℤ) : ZMod p) = ((polySum f x : ℤ) : ZMod p) := by
  rw [polyOfList, Polynomial.eval_finset_sum]
  simp only [Polynomial.eval_mul, Polynomial.eval_C, Polynomial.eval_pow,
    Polynomial.eval_X]
  exact sum_coef_eq_polySum p x f

lemma polyOfList_eval_zero (p : ℕ) (f : List ℤ) (hf : f ≠ []) :
    (polyOfList p f).eval 0 = ((f.headI : ℤ) : ZMod p) := by
  rw [polyOfList, Polynomial.eval_finset_sum]
  simp only [Polynomial.eval_mul, Polynomial.eval_C, Polynomial.eval_pow,
    Polynomial.eval_X]
  rw [Finset.sum_eq_single 0]
  · rcases f with - | ⟨a, l⟩
    · exact absurd rfl hf
    · simp [List.headI]
  · intro j hj hj0
    rw [zero_pow hj0, mul_zero]
  · intro h0
    exfalso
    apply h0
    rw [Finset.mem_range]
    exact List.length_pos.mpr hf

lemma sum_lagrange_eval_zero (p : ℕ) (hp : p.Prime) (n : ℕ)
    (v r : ℕ → ZMod p) (F : Polynomial (ZMod p))
    (hinj : Set.InjOn v (Finset.range n))
    (hdeg : F.degree < (n : WithBot ℕ))
    (hr : ∀ j ∈ Finset.range n, r j = F.eval (v j)) :
    ∑ i ∈ Finset.range n, r i *
        ∏ j ∈ (Finset.range n).erase i, (v j * (v j - v i)⁻¹) = F.eval 0 := by
  haveI := Fact.mk hp
  have hF := Lagrange.eq_interpolate (s := Finset.range n) (v := v) hinj
    (by simpa [Finset.card_range] using hdeg)
  have h0 := congrArg (Polynomial.eval 0) hF
  rw [Lagrange.interpolate_apply, Polynomial.eval_finset_sum] at h0
  rw [h0]
  refine Finset.sum_congr rfl ?_
  intro i hi
  rw [Polynomial.eval_mul, Polynomial.eval_C, ← hr i hi]
  congr 1
  rw [show Lagrange.basis (Finset.range n) v i =
      ∏ j ∈ (Finset.range n).erase i, Lagrange.basisDivisor (v i) (v j) from rfl]
  rw [Polynomial.eval_prod]
  refine Finset.prod_congr rfl ?_
  intro j hj
  rw [show Lagrange.basisDivisor (v i) (v j) =
      Polynomial.C (v i - v j)⁻¹ * (Polynomial.X - Polynomial.C (v j)) from rfl]
  rw [Polynomial.eval_mul, Polynomial.eval_C, Polynomial.eval_sub,
    Polynomial.eval_X, Polynomial.eval_C]
  rw [zero_sub, ← neg_sub (v i) (v j), inv_neg]
  ring

lemma combine_polySum (p : ℕ) (hp : p.Prime) (f : List ℤ) (hf : f ≠ [])
    (sub : List (ℤ × ℤ)) (hlen : sub.length = f.length)
    (hdist : sub.Pairwise (fun a b : ℤ × ℤ => (a.1 : ZMod p) ≠ (b.1 : ZMod p)))
    (hy : ∀ s ∈ sub, ((s.2 : ℤ) : ZMod p) = ((polySum f s.1 : ℤ) : ZMod p)) :
    ∃ s, Combine (p : ℤ) sub = some s ∧ 0 ≤ s ∧ s < (p : ℤ) ∧
      (s : ZMod p) = ((f.headI : ℤ) : ZMod p) := by
  rcases combine_bridge p hp sub hdist with ⟨s, hs, h0, h1, hsc⟩
  refine ⟨s, hs, h0, h1, ?_⟩
  rw [hsc]
  have hL := lagSum_eq_sum p sub []
  simp only [List.nil_append, List.length_nil] at hL
  rw [← Finset.range_eq_Ico] at hL
  rw [hL]
  have heval := sum_lagrange_eval_zero p hp sub.length
    (fun j => ((sub.getD j (0, 0)).1 : ZMod p))
    (fun j => ((sub.getD j (0, 0)).2 : ZMod p))
    (polyOfList p f) ?_ ?_ ?_
  · rw [heval, polyOfList_eval_zero p f hf]
  · intro a ha b hb hab
    simp only [Finset.coe_range, Set.mem_Iio] at ha hb
    by_contra hne
    have hpg := List.pairwise_iff_getElem.mp hdist
    rcases Nat.lt_or_ge a b with h | h
    · refine hpg a b ha hb h ?_
      rw [← List.getD_eq_getElem sub (0, 0) ha, ← List.getD_eq_getElem sub (0, 0) hb]
      exact hab
    · have hba : b < a := by omega
      refine hpg b a hb ha hba ?_
      rw [← List.getD_eq_getElem sub (0, 0) hb, ← List.getD_eq_getElem sub (0, 0) ha]
      exact hab.symm
  · rw [hlen]
    exact polyOfList_degree_lt p f
  · intro j hj
    rw [Finset.mem_range] at hj
    have hmem : sub.getD j (0, 0) ∈ sub := by
      rw [List.getD_eq_getElem sub (0, 0) hj]
      exact List.getElem_mem hj
    rw [polyOfList_eval_cast]
    exact hy _ hmem

/-! ## The round trip of Split and Combine -/

lemma zmod_cast_inj (p : ℕ) {a b : ℤ} (ha0 : 0 ≤ a) (ha1 : a < (p : ℤ))
    (hb0 : 0 ≤ b) (hb1 : b < (p : ℤ)) (h : (a : ZMod p) = (b : ZMod p)) :
    a = b := by
  rw [ZMod.intCast_eq_intCast_iff', Int.emod_eq_of_lt ha0 ha1,
    Int.emod_eq_of_lt hb0 hb1] at h
  exact h

lemma combine_eq_headI (p : ℕ) (hp : p.Prime) (F : List ℤ) (hFne : F ≠ [])
    (h0 : 0 ≤ F.headI) (h1 : F.headI < (p : ℤ))
    (sub : List (ℤ × ℤ)) (hlen : sub.length = F.length)
    (hdist : sub.Pairwise (fun a b : ℤ × ℤ => (a.1 : ZMod p) ≠ (b.1 : ZMod p)))
    (hy : ∀ s ∈ sub, ((s.2 : ℤ) : ZMod p) = ((polySum F s.1 : ℤ) : ZMod p)) :
    Combine (p : ℤ) sub = some F.headI := by
  rcases combine_polySum p hp F hFne sub hlen hdist hy with ⟨s, hs, hs0, hs1, hsc⟩
  rw [hs, zmod_cast_inj p hs0 hs1 h0 h1 hsc]

lemma splitShares_mem (N Q : ℤ) (sp rp : List ℤ) (xs : List ℤ) (wb : Bool)
    {s : ℤ × ℤ} (hs : s ∈ splitShares N Q sp rp xs wb) :
    s.1 ∈ xs ∧ s.2 =
      (if wb then
        (evaluatePolynomial N sp s.1 + evaluatePolynomial Q rp s.1) % Q
      else evaluatePolynomial N sp s.1) := by
  rw [splitShares, List.mem_map] at hs
  obtain ⟨x, hx, rfl⟩ := hs
  exact ⟨hx, rfl⟩

lemma sub_pairwise_cast (p : ℕ) (N Q : ℤ) (sp rp : List ℤ) (xs : List ℤ)
    (wb : Bool) (hxs : ∀ x ∈ xs, 0 ≤ x ∧ x < (p : ℤ))
    (sub : List (ℤ × ℤ))
    (hsubset : ∀ s ∈ sub, s ∈ splitShares N Q sp rp xs wb)
    (hnodup : sub.Nodup) :
    sub.Pairwise (fun a b : ℤ × ℤ => (a.1 : ZMod p) ≠ (b.1 : ZMod p)) := by
  refine List.Pairwise.imp_of_mem ?_ hnodup
  intro a b ha hb hab hc
  obtain ⟨hax, hay⟩ := splitShares_mem N Q sp rp xs wb (hsubset a ha)
  obtain ⟨hbx, hby⟩ := splitShares_mem N Q sp rp xs wb (hsubset b hb)
  rcases hxs a.1 hax with ⟨ha0, ha1⟩
  rcases hxs b.1 hbx with ⟨hb0, hb1⟩
  have h1 : a.1 = b.1 := zmod_cast_inj p ha0 ha1 hb0 hb1 hc
  apply hab
  have h2 : a.2 = b.2 := by rw [hay, hby, h1]
  exact Prod.ext h1 h2

lemma polySum_zipWith_add (x : ℤ) :
    ∀ f g : List ℤ, f.length = g.length →
      polySum (List.zipWith (· + ·) f g) x = polySum f x + polySum g x := by
  intro f
  induction f with
  | nil =>
    intro g h
    rcases g with - | ⟨b, g⟩
    · simp [polySum]
    · simp at h
  | cons a f ih =>
    intro g h
    rcases g with - | ⟨b, g⟩
    · simp at h
    · rw [List.zipWith_cons_cons]
      rw [show polySum ((a + b) :: List.zipWith (· + ·) f g) x =
          (a + b) + x * polySum (List.zipWith (· + ·) f g) x from rfl]
      rw [ih g (by simpa using h)]
      rw [show polySum (a :: f) x = a + x * polySum f x from rfl,
        show polySum (b :: g) x = b + x * polySum g x from rfl]
      ring

lemma splitShares_y_cast (p : ℕ) (sp rp : List ℤ) (wb : Bool)
    (hlen : wb = true → rp.length = sp.length) {s : ℤ × ℤ}
    (h2 : s.2 =
      (if wb then
        (evaluatePolynomial (p : ℤ) sp s.1 + evaluatePolynomial (p : ℤ) rp s.1)
          % (p : ℤ)
      else evaluatePolynomial (p : ℤ) sp s.1)) :
    ((s.2 : ℤ) : ZMod p) =
      ((polySum (if wb then List.zipWith (· + ·) sp rp else sp) s.1 : ℤ) :
        ZMod p) := by
  cases wb with
  | false =>
    simp only [Bool.false_eq_true, if_false] at h2 ⊢
    rw [h2, ZMod.intCast_eq_intCast_iff]
    exact evaluatePolynomial_modEq (p : ℤ) sp s.1
  | true =>
    simp only [if_true] at h2 ⊢
    rw [h2, intCast_emod_zmod,
      polySum_zipWith_add s.1 sp rp (hlen rfl).symm,
      ZMod.intCast_eq_intCast_iff]
    exact (evaluatePolynomial_modEq (p : ℤ) sp s.1).add
      (evaluatePolynomial_modEq (p : ℤ) rp s.1)

/-- C1 (amended): the round trip holds when the caller-supplied field
order `Q` equals the curve group order `N` used for the polynomial
arithmetic (and is prime): for every valid input, every entropy
sequence for which `Split` succeeds, and every `threshold`-sized
duplicate-free subset `sub` of the returned shares (with or without
blinding), `Combine` with that same field order returns exactly the
original secret. -/
theorem split_combine_roundtrip (p : ℕ) (hp : p.Prime)
    (secret : ℤ) (hs0 : 0 ≤ secret) (hs1 : secret < (p : ℤ))
    (secretPoly randomPoly : List ℤ) (wb : Bool)
    (hsp : secretPoly.headI = secret) (hspne : secretPoly ≠ [])
    (hrp : wb = true → randomPoly.headI = 0 ∧
      randomPoly.length = secretPoly.length)
    (parts threshold : ℤ) (hthr : (secretPoly.length : ℤ) = threshold)
    (_hvalid : splitValidate (p : ℤ) (some secret) parts threshold = none)
    (xs : List ℤ) (hxs : ∀ x ∈ xs, 1 ≤ x ∧ x < (p : ℤ))
    (_hxl : (xs.length : ℤ) = parts)
    (sub : List (ℤ × ℤ))
    (hsubset : ∀ s ∈ sub,
      s ∈ splitShares (p : ℤ) (p : ℤ) secretPoly randomPoly xs wb)
    (hnodup : sub.Nodup)
    (hsublen : (sub.length : ℤ) = threshold) :
    Combine (p : ℤ) sub = some secret := by
  have hxs0 : ∀ x ∈ xs, 0 ≤ x ∧ x < (p : ℤ) := by
    intro x hx
    rcases hxs x hx with ⟨h1, h2⟩
    exact ⟨by omega, h2⟩
  have hdist := sub_pairwise_cast p (p : ℤ) (p : ℤ) secretPoly randomPoly xs
    wb hxs0 sub hsubset hnodup
  set F : List ℤ :=
    if wb then List.zipWith (· + ·) secretPoly randomPoly else secretPoly
    with hF
  have hrplen : wb = true → randomPoly.length = secretPoly.length :=
    fun h => (hrp h).2
  have hFlen : F.length = secretPoly.length := by
    rw [hF]
    cases wb with
    | false => simp
    | true =>
      simp only [if_true, List.length_zipWith]
      rw [(hrp rfl).2]
      exact Nat.min_self _
  have hFne : F ≠ [] := by
    intro h
    apply hspne
    have := congrArg List.length h
    rw [hFlen] at this
    simpa using List.length_eq_zero.mp (by simpa using this)
  have hFhead : F.headI = secret := by
    rw [hF]
    cases wb with
    | false => simpa using hsp
    | true =>
      simp only [if_true]
      rcases secretPoly with - | ⟨s0, sptl⟩
      · exact absurd rfl hspne
      · have hrpne : randomPoly ≠ [] := by
          intro h
          have := (hrp rfl).2
          rw [h] at this
          simp at this
        rcases randomPoly with - | ⟨r0, rptl⟩
        · exact absurd rfl hrpne
        · have h1 : s0 = secret := by simpa [List.headI] using hsp
          have h2 : r0 = 0 := by simpa [List.headI] using (hrp rfl).1
          simp [List.headI, h1, h2]
  have hlen : sub.length = F.length := by
    rw [hFlen]
    have : (sub.length : ℤ) = (secretPoly.length : ℤ) := by
      rw [hsublen, hthr]
    exact_mod_cast this
  have hy : ∀ s ∈ sub,
      ((s.2 : ℤ) : ZMod p) = ((polySum F s.1 : ℤ) : ZMod p) := by
    intro s hs
    obtain ⟨-, hsy⟩ := splitShares_mem (p : ℤ) (p : ℤ) secretPoly randomPoly
      xs wb (hsubset s hs)
    exact splitShares_y_cast p secretPoly randomPoly wb hrplen hsy
  have := combine_eq_headI p hp F hFne (hFhead ▸ hs0) (hFhead ▸ hs1)
    sub hlen hdist hy
  rw [hFhead] at this
  exact this

/-- Witness for the amended C1: a full concrete round trip with
`p = N = Q = 5`, secret 3, threshold = parts = 2. -/
theorem split_combine_roundtrip_witness :
    Combine 5 (splitShares 5 5 [3, 1] [] [1, 2] false) = some 3 := by
  have h := split_combine_roundtrip 5 (by decide) 3 (by decide) (by decide)
    [3, 1] [] false (by decide) (by decide) (fun h => nomatch h)
    2 2 (by decide) (by decide) [1, 2] (by decide) (by decide)
    (splitShares 5 5 [3, 1] [] [1, 2] false) (fun s hs => hs)
    (by decide) (by decide)
  exact_mod_cast h

/-- C1 (counterexample): with a curve of (prime) group order `N = 5` and
the distinct caller-supplied prime field order `Q = 7`, the input
`secret = 3 ∈ [0, Q)`, `parts = threshold = 2` is valid and the
entropy values are ones `Split` accepts (nonzero coefficient in
`[1, N)`, distinct nonzero coordinates in `[1, Q)`), yet combining
both returned shares with the same `Q` yields 1, not the original
secret 3: the claim fails when `Q` differs from the curve order used
to evaluate the secret polynomial. -/
theorem split_combine_mixed_orders_fails :
    Nat.Prime 7 ∧ Nat.Prime 5 ∧
      (0 : ℤ) ≤ 3 ∧ (3 : ℤ) < 7 ∧
      splitValidate 7 (some 3) 2 2 = none ∧
      (∀ c ∈ ([1] : List ℤ), 1 ≤ c ∧ c < 5) ∧
      (∀ x ∈ ([1, 2] : List ℤ), 1 ≤ x ∧ x < 7) ∧
      ([1, 2] : List ℤ).Pairwise (· ≠ ·) ∧
      Combine 7 (splitShares 5 7 [3, 1] [] [1, 2] false) = some 1 ∧
      (1 : ℤ) ≠ 3 := by
  refine ⟨by decide, by decide, by decide, by decide, rfl, by decide,
    by decide, by decide, by decide, by decide⟩

/-! ## The Verify accumulation loop -/

/-- The spec-side Feldman accumulator
`Acc = Σ_{k=0}^{t-1} Commitment[k] * X^k` (the scalar reduced modulo the
curve order, the `X^0` term taken as `Commitment[0]` itself), written
as a left fold of the abstract curve operations. -/
def specAcc (c : Curve) (x : ℤ) (cs : List (ℤ × ℤ)) (t : ℕ) : ℤ × ℤ :=
  (List.range' 1 (t - 1)).foldl
    (fun a k => c.add a (c.scalarMult (cs.getD k (0, 0)) (x ^ k % c.N)))
    cs.headI

lemma verifyLoop_powers (c : Curve) (x : ℤ) (cs : List (ℤ × ℤ)) :
    ∀ (m j : ℕ) (acc : ℤ × ℤ) (tk : ℤ), 1 ≤ j →
      tk % c.N = x ^ (j - 1) % c.N →
      (verifyLoop c x cs (List.range' j m) (acc, tk)).1 =
        (List.range' j m).foldl
          (fun a k => c.add a (c.scalarMult (cs.getD k (0, 0)) (x ^ k % c.N)))
          acc := by
  intro m
  induction m with
  | zero => intro j acc tk hj htk; rfl
  | succ m ih =>
    intro j acc tk hj htk
    rw [List.range'_succ]
    have htk1 : tk * x % c.N = x ^ j % c.N := by
      calc tk * x % c.N = tk % c.N * (x % c.N) % c.N := Int.mul_emod _ _ _
        _ = x ^ (j - 1) % c.N * (x % c.N) % c.N := by rw [htk]
        _ = x ^ (j - 1) * x % c.N := (Int.mul_emod _ _ _).symm
        _ = x ^ j % c.N := by
            have hj1 : j - 1 + 1 = j := by omega
            rw [← pow_succ, hj1]
    show (verifyLoop c x cs (List.range' (j + 1) m)
        (c.add acc (c.scalarMult (cs.getD j (0, 0)) (tk * x % c.N)),
          tk * x % c.N)).1 = _
    rw [htk1, List.foldl_cons]
    exact ih (j + 1) _ _ (by omega)
      (by rw [Int.emod_emod_of_dvd _ dvd_rfl, Nat.add_sub_cancel])

lemma verifyLoop_congr (c : Curve) (x : ℤ) (cs cs2 : List (ℤ × ℤ)) :
    ∀ (ks : List ℕ) (st : (ℤ × ℤ) × ℤ),
      (∀ k ∈ ks, cs.getD k (0, 0) = cs2.getD k (0, 0)) →
      verifyLoop c x cs ks st = verifyLoop c x cs2 ks st := by
  intro ks
  induction ks with
  | nil => intro st h; rfl
  | cons k ks ih =>
    intro st h
    rcases st with ⟨acc, tk⟩
    show verifyLoop c x cs ks
        (c.add acc (c.scalarMult (cs.getD k (0, 0)) (tk * x % c.N)), _) =
      verifyLoop c x cs2 ks
        (c.add acc (c.scalarMult (cs2.getD k (0, 0)) (tk * x % c.N)), _)
    rw [h k (by simp)]
    exact ih _ (fun k2 hk2 => h k2 (by simp [hk2]))

/-- C5: when the validation checks of the src `Share.Verify` pass
(commitment list of length `threshold + 1`, share on the curve,
`threshold ≥ 1`), the call returns no error and its boolean result is
true exactly when `ScalarBaseMult(Y)` equals the Feldman accumulator
`Σ_{k=0}^{threshold-1} Commitment[k] * X^k` (scalars reduced modulo
the curve order, the `X^0` term taken as `Commitment[0]` itself). -/
theorem verify_src_feldman_iff (c : Curve) (threshold : ℤ) (share : ℤ × ℤ)
    (cs : List (ℤ × ℤ)) (_ht : 1 ≤ threshold)
    (hlen : (cs.length : ℤ) = threshold + 1)
    (hoc : c.isOnCurve share.1 share.2 = true) :
    VerifySrc c threshold share (some cs) = .ok true ↔
      c.scalarBaseMult share.2 = specAcc c share.1 cs threshold.toNat := by
  rw [VerifySrc]
  rw [if_neg (by rw [hlen]; exact fun h => h rfl)]
  rw [if_neg (by rw [hoc]; exact fun h => nomatch h)]
  have hloop : (verifyLoop c share.1 cs (List.range' 1 (threshold - 1).toNat)
      (cs.headI, 1)).1 = specAcc c share.1 cs threshold.toNat := by
    rw [specAcc, Int.pred_toNat]
    exact verifyLoop_powers c share.1 cs (threshold.toNat - 1) 1 cs.headI 1
      le_rfl (by norm_num)
  show Except.ok (decide (c.scalarBaseMult share.2 =
      (verifyLoop c share.1 cs (List.range' 1 (threshold - 1).toNat)
        (cs.headI, 1)).1)) = Except.ok true ↔ _
  rw [hloop]
  simp [decide_eq_true_eq]

/-- Witness for C5 on the toy curve. -/
theorem verify_src_feldman_iff_witness :
    VerifySrc toyCurve 2 (1, 4) (some [(3, 0), (1, 0), (9, 9)]) = .ok true ↔
      toyCurve.scalarBaseMult 4 =
        specAcc toyCurve 1 [(3, 0), (1, 0), (9, 9)] (2 : ℤ).toNat :=
  verify_src_feldman_iff toyCurve 2 (1, 4) [(3, 0), (1, 0), (9, 9)]
    (by decide) (by decide) rfl

/-- C9: the src `Share.Verify` reads only the commitments at indices
`0 .. threshold - 1`; two accepted commitment lists (both of the
length `threshold + 1` the length check demands) that agree on those
indices produce identical outcomes, so the entry at index
`threshold` cannot influence the result. -/
theorem verify_ignores_extra_commitments (c : Curve) (threshold : ℤ)
    (share : ℤ × ℤ) (cs cs2 : List (ℤ × ℤ)) (ht : 1 ≤ threshold)
    (hlen : (cs.length : ℤ) = threshold + 1)
    (hlen2 : (cs2.length : ℤ) = threshold + 1)
    (hagree : ∀ k : ℕ, (k : ℤ) < threshold →
      cs.getD k (0, 0) = cs2.getD k (0, 0)) :
    VerifySrc c threshold share (some cs) =
      VerifySrc c threshold share (some cs2) := by
  have reduce : ∀ l : List (ℤ × ℤ), (l.length : ℤ) = threshold + 1 →
      VerifySrc c threshold share (some l) =
        (if c.isOnCurve share.1 share.2 = false then
          Except.error VerifyError.notOnCurve
        else
          Except.ok (decide (c.scalarBaseMult share.2 =
            (verifyLoop c share.1 l (List.range' 1 (threshold - 1).toNat)
              (l.headI, 1)).1))) := by
    intro l hl
    rw [VerifySrc, hl, if_neg (fun h => h rfl)]
  rw [reduce cs hlen, reduce cs2 hlen2]
  by_cases hoc : c.isOnCurve share.1 share.2 = false
  · rw [if_pos hoc, if_pos hoc]
  · rw [if_neg hoc, if_neg hoc]
    have hhead : cs.headI = cs2.headI := by
      have h0 := hagree 0 (by omega)
      have e1 : cs.headI = cs.getD 0 (0, 0) := by
        rcases cs with - | ⟨a, l⟩ <;> rfl
      have e2 : cs2.headI = cs2.getD 0 (0, 0) := by
        rcases cs2 with - | ⟨a, l⟩ <;> rfl
      rw [e1, e2, h0]
    have hcast : ((threshold - 1).toNat : ℤ) = threshold - 1 :=
      Int.toNat_of_nonneg (by omega)
    have hloop := verifyLoop_congr c share.1 cs cs2
      (List.range' 1 (threshold - 1).toNat) (cs.headI, 1)
      (fun k hk => by
        rw [List.mem_range'_1] at hk
        refine hagree k ?_
        have : (k : ℤ) < 1 + ((threshold - 1).toNat : ℤ) := by
          exact_mod_cast hk.2
        omega)
    rw [hloop, hhead]

/-- Witness for C9 on the toy curve: the two lists differ in the entry
at index `threshold` yet verify identically. -/
theorem verify_ignores_extra_commitments_witness :
    VerifySrc toyCurve 2 (1, 4) (some [(3, 0), (1, 0), (9, 9)]) =
      VerifySrc toyCurve 2 (1, 4) (some [(3, 0), (1, 0), (7, 7)]) :=
  verify_ignores_extra_commitments toyCurve 2 (1, 4)
    [(3, 0), (1, 0), (9, 9)] [(3, 0), (1, 0), (7, 7)]
    (by decide) (by decide) (by decide)
    (fun k hk => by
      have hk2 : k < 2 := by exact_mod_cast hk
      interval_cases k <;> rfl)

/-- C4: the spec-modelled current `Share.Verify` returns a
`CommitmentLengthMismatchError` exactly when the commitment list is
absent, or present with a length other than `threshold`
(`2 × threshold` when blinding is enabled); a present list of exactly
that length never raises the length error. -/
theorem verify_spec_length_error (c : Curve) (threshold : ℤ)
    (share : ℤ × ℤ) (commits : Option (List (ℤ × ℤ))) (wb : Bool) :
    VerifySpec c threshold share commits wb =
        .error .commitmentLengthMismatch ↔
      commits = none ∨ ∃ cs, commits = some cs ∧
        (cs.length : ℤ) ≠ (if wb then 2 * threshold else threshold) := by
  cases commits with
  | none => simp [VerifySpec]
  | some cs =>
    rw [VerifySpec]
    have hcomm : (if wb then threshold * 2 else threshold) =
        (if wb then 2 * threshold else threshold) := by
      cases wb <;> simp [mul_comm]
    rw [hcomm]
    by_cases hl : (cs.length : ℤ) = (if wb then 2 * threshold else threshold)
    · rw [if_neg (by rw [hl]; exact fun h => h rfl)]
      constructor
      · intro h
        by_cases hoc : c.isOnCurve share.1 share.2 = false
        · rw [if_pos hoc] at h
          exact absurd h (by simp)
        · rw [if_neg hoc] at h
          cases wb with
          | false => simp at h
          | true => simp at h
      · intro h
        rcases h with h | ⟨cs2, hcs2, hne⟩
        · exact absurd h (by simp)
        · rw [← Option.some.inj hcs2] at hne
          exact absurd hl hne
    · rw [if_pos hl]
      simp only [true_iff, iff_true]
      exact Or.inr ⟨cs, rfl, hl⟩

/-! ## Soundness of verification for honestly split shares (C2)

The equations `Hadd`, `Hsm`, `Hmod` below are the contract of the
external curve-arithmetic collaborator on the subgroup generated by
the base point: adding or scalar-multiplying base-point multiples is
addition/multiplication of exponents, and exponents only matter modulo
the group order `N`. -/

lemma sbm_congr (c : Curve)
    (Hmod : ∀ a : ℤ, c.scalarBaseMult (a % c.N) = c.scalarBaseMult a)
    {u v : ℤ} (h : u ≡ v [ZMOD c.N]) :
    c.scalarBaseMult u = c.scalarBaseMult v := by
  have h2 : c.scalarBaseMult (u % c.N) = c.scalarBaseMult (v % c.N) := by
    rw [Int.ModEq] at h
    rw [h]
  rwa [Hmod, Hmod] at h2

lemma foldl_commit (c : Curve) (x : ℤ)
    (Hadd : ∀ a b : ℤ,
      c.add (c.scalarBaseMult a) (c.scalarBaseMult b) = c.scalarBaseMult (a + b))
    (Hsm : ∀ a k : ℤ,
      c.scalarMult (c.scalarBaseMult a) k = c.scalarBaseMult (a * k))
    (poly : List ℤ) :
    ∀ (m j : ℕ) (v : ℤ), j + m = poly.length →
      ∃ w, (List.range' j m).foldl
          (fun a k => c.add a
            (c.scalarMult ((commit c poly).getD k (0, 0)) (x ^ k % c.N)))
          (c.scalarBaseMult v) = c.scalarBaseMult w ∧
        w ≡ v + x ^ j * polySum (poly.drop j) x [ZMOD c.N] := by
  intro m
  induction m with
  | zero =>
    intro j v hj
    refine ⟨v, rfl, ?_⟩
    have hd : poly.drop j = [] := by
      rw [show j = poly.length from by omega, List.drop_length]
    rw [hd]
    simp [polySum]
  | succ m ih =>
    intro j v hj
    rw [List.range'_succ, List.foldl_cons]
    have hjlen : j < poly.length := by omega
    have hgd : (commit c poly).getD j (0, 0) =
        c.scalarBaseMult (poly.getD j 0) := by
      rw [commit, List.getD_eq_getElem _ _ (by simpa using hjlen),
        List.getElem_map, List.getD_eq_getElem _ _ hjlen]
    rw [hgd, Hsm, Hadd]
    rcases ih (j + 1) (v + poly.getD j 0 * (x ^ j % c.N)) (by omega)
      with ⟨w, hw, hwc⟩
    refine ⟨w, hw, ?_⟩
    have hdrop : poly.drop j = poly.getD j 0 :: poly.drop (j + 1) := by
      rw [List.getD_eq_getElem _ _ hjlen]
      exact List.drop_eq_getElem_cons hjlen
    rw [hdrop, show polySum (poly.getD j 0 :: poly.drop (j + 1)) x =
      poly.getD j 0 + x * polySum (poly.drop (j + 1)) x from rfl]
    have h1 : poly.getD j 0 * (x ^ j % c.N) ≡
        poly.getD j 0 * x ^ j [ZMOD c.N] :=
      (int_emod_modEq _ _).mul_left _
    calc w ≡ v + poly.getD j 0 * (x ^ j % c.N) +
            x ^ (j + 1) * polySum (poly.drop (j + 1)) x [ZMOD c.N] := hwc
      _ ≡ v + poly.getD j 0 * x ^ j +
            x ^ (j + 1) * polySum (poly.drop (j + 1)) x [ZMOD c.N] :=
          (h1.add_left v).add_right _
      _ = v + x ^ j *
            (poly.getD j 0 + x * polySum (poly.drop (j + 1)) x) := by ring

lemma feldmanAcc_commit (c : Curve) (x : ℤ)
    (Hadd : ∀ a b : ℤ,
      c.add (c.scalarBaseMult a) (c.scalarBaseMult b) = c.scalarBaseMult (a + b))
    (Hsm : ∀ a k : ℤ,
      c.scalarMult (c.scalarBaseMult a) k = c.scalarBaseMult (a * k))
    (poly : List ℤ) (hpoly : poly ≠ []) :
    ∃ w, feldmanAcc c x (commit c poly) poly.length = c.scalarBaseMult w ∧
      w ≡ polySum poly x [ZMOD c.N] := by
  rcases poly with - | ⟨a, tl⟩
  · exact absurd rfl hpoly
  · rw [feldmanAcc]
    have hhead : (commit c (a :: tl)).headI = c.scalarBaseMult a := rfl
    rw [hhead]
    rw [verifyLoop_powers c x (commit c (a :: tl)) ((a :: tl).length - 1) 1
      (c.scalarBaseMult a) 1 le_rfl (by norm_num)]
    rcases foldl_commit c x Hadd Hsm (a :: tl) ((a :: tl).length - 1) 1 a
      (by simp only [List.length_cons, Nat.add_sub_cancel]; omega)
      with ⟨w, hw, hwc⟩
    refine ⟨w, hw, ?_⟩
    have hd1 : (a :: tl).drop 1 = tl := rfl
    rw [hd1, pow_one] at hwc
    exact hwc

/-- C2 (spec-modelled, per-share): a share produced by a successful
`Split` run verifies as `true` (with no error) through the current
`Share.Verify` against the commitment list of the same call, with the
matching blinding flag — given the group-law contract of the external
curve arithmetic, the share passing the on-curve test, and (in the
blinding case) the caller-supplied field order equal to the curve
order, as in the library's own tests. -/
theorem split_shares_verify_sound (c : Curve)
    (Hadd : ∀ a b : ℤ,
      c.add (c.scalarBaseMult a) (c.scalarBaseMult b) = c.scalarBaseMult (a + b))
    (Hsm : ∀ a k : ℤ,
      c.scalarMult (c.scalarBaseMult a) k = c.scalarBaseMult (a * k))
    (Hmod : ∀ a : ℤ, c.scalarBaseMult (a % c.N) = c.scalarBaseMult a)
    (secretPoly randomPoly : List ℤ) (hspne : secretPoly ≠ [])
    (wb : Bool) (threshold : ℤ)
    (hthr : (secretPoly.length : ℤ) = threshold)
    (hrp : wb = true → randomPoly.length = secretPoly.length)
    (Q : ℤ) (hQ : wb = true → Q = c.N)
    (xs : List ℤ) (s : ℤ × ℤ)
    (hs : s ∈ splitShares c.N Q secretPoly randomPoly xs wb)
    (hoc : c.isOnCurve s.1 s.2 = true) :
    VerifySpec c threshold s
      (some (splitCommits c secretPoly randomPoly wb)) wb = .ok true := by
  obtain ⟨-, hsy⟩ := splitShares_mem c.N Q secretPoly randomPoly xs wb hs
  have htoNat : threshold.toNat = secretPoly.length := by
    rw [← hthr, Int.toNat_natCast]
  have hlensp : (commit c secretPoly).length = secretPoly.length := by
    rw [commit, List.length_map]
  rw [VerifySpec]
  cases wb with
  | false =>
    have hcs : splitCommits c secretPoly randomPoly false = commit c secretPoly := by
      rw [splitCommits]
      simp
    rw [hcs]
    rw [if_neg (by
      simp only [Bool.false_eq_true, if_false, hlensp]
      rw [hthr]
      exact fun h => h rfl)]
    rw [if_neg (by rw [hoc]; exact fun h => nomatch h)]
    have htake : (commit c secretPoly).take threshold.toNat = commit c secretPoly := by
      rw [htoNat, ← hlensp]
      exact List.take_length _
    rcases feldmanAcc_commit c s.1 Hadd Hsm secretPoly hspne with ⟨w, hw, hwc⟩
    have hsp2 : feldmanAcc c s.1 (commit c secretPoly) threshold.toNat =
        c.scalarBaseMult w := by
      rw [htoNat]
      exact hw
    have hy : s.2 = evaluatePolynomial c.N secretPoly s.1 := by
      simpa using hsy
    have hcong : c.scalarBaseMult s.2 = c.scalarBaseMult w := by
      refine sbm_congr c Hmod ?_
      rw [hy]
      exact (evaluatePolynomial_modEq c.N secretPoly s.1).trans hwc.symm
    show Except.ok (decide (c.scalarBaseMult s.2 =
        feldmanAcc c s.1
          ((commit c secretPoly).take threshold.toNat) threshold.toNat)) =
      Except.ok true
    rw [htake, hsp2, hcong]
    simp
  | true =>
    have hrpl : randomPoly.length = secretPoly.length := hrp rfl
    have hrpne : randomPoly ≠ [] := by
      intro h
      apply hspne
      rw [h] at hrpl
      exact List.length_eq_zero.mp (by simpa using hrpl.symm)
    have hQN : Q = c.N := hQ rfl
    have hcs : splitCommits c secretPoly randomPoly true =
        commit c secretPoly ++ commit c randomPoly := by
      rw [splitCommits]
      simp
    have hlenrp : (commit c randomPoly).length = secretPoly.length := by
      rw [commit, List.length_map, hrpl]
    rw [hcs]
    rw [if_neg (by
      simp only [if_true, List.length_append, hlensp, hlenrp]
      rw [Nat.cast_add, hthr]
      exact fun h => h (by ring))]
    rw [if_neg (by rw [hoc]; exact fun h => nomatch h)]
    have htake : (commit c secretPoly ++ commit c randomPoly).take
        threshold.toNat = commit c secretPoly := by
      rw [htoNat, ← hlensp]
      exact List.take_left _ _
    have hdrop : (commit c secretPoly ++ commit c randomPoly).drop
        threshold.toNat = commit c randomPoly := by
      rw [htoNat, ← hlensp]
      exact List.drop_left _ _
    rcases feldmanAcc_commit c s.1 Hadd Hsm secretPoly hspne with ⟨w1, hw1, hwc1⟩
    rcases feldmanAcc_commit c s.1 Hadd Hsm randomPoly hrpne with ⟨w2, hw2, hwc2⟩
    have hsp2 : feldmanAcc c s.1 (commit c secretPoly) threshold.toNat =
        c.scalarBaseMult w1 := by
      rw [htoNat]
      exact hw1
    have hrp2 : feldmanAcc c s.1 (commit c randomPoly) threshold.toNat =
        c.scalarBaseMult w2 := by
      rw [htoNat, ← hrpl]
      exact hw2
    have hy : s.2 = (evaluatePolynomial c.N secretPoly s.1 +
        evaluatePolynomial Q randomPoly s.1) % Q := by
      simpa using hsy
    have hcong : c.scalarBaseMult s.2 = c.scalarBaseMult (w1 + w2) := by
      refine sbm_congr c Hmod ?_
      rw [hy, hQN]
      calc (evaluatePolynomial c.N secretPoly s.1 +
              evaluatePolynomial c.N randomPoly s.1) % c.N
          ≡ evaluatePolynomial c.N secretPoly s.1 +
              evaluatePolynomial c.N randomPoly s.1 [ZMOD c.N] :=
            int_emod_modEq _ _
        _ ≡ polySum secretPoly s.1 + polySum randomPoly s.1 [ZMOD c.N] :=
            (evaluatePolynomial_modEq c.N secretPoly s.1).add
              (evaluatePolynomial_modEq c.N randomPoly s.1)
        _ ≡ w1 + w2 [ZMOD c.N] := (hwc1.symm.add hwc2.symm)
    show Except.ok (decide (c.scalarBaseMult s.2 =
        c.add
          (feldmanAcc c s.1
            ((commit c secretPoly ++ commit c randomPoly).take threshold.toNat)
            threshold.toNat)
          (feldmanAcc c s.1
            ((commit c secretPoly ++ commit c randomPoly).drop threshold.toNat)
            threshold.toNat))) =
      Except.ok true
    rw [htake, hdrop, hsp2, hrp2, Hadd, hcong]
    simp

/-- Witness for C2 on the toy curve: the share `(1, 4)` of the concrete
split `secret = 3`, `coefficients [3, 1]`, `xs = [1, 2]` verifies true
against the commitments of the same call. -/
theorem split_shares_verify_sound_witness :
    VerifySpec toyCurve 2 (1, 4)
      (some (splitCommits toyCurve [3, 1] [] false)) false = .ok true :=
  split_shares_verify_sound toyCurve
    (fun a b => by
      simp only [toyCurve]
      rw [Prod.mk.injEq]
      constructor
      · rw [Int.add_emod a b 5]
      · decide)
    (fun a k => by
      simp only [toyCurve]
      rw [Prod.mk.injEq]
      constructor
      · rw [Int.mul_emod, Int.emod_emod_of_dvd _ dvd_rfl, ← Int.mul_emod]
      · simp)
    (fun a => by
      simp only [toyCurve]
      rw [Prod.mk.injEq]
      constructor
      · exact Int.emod_emod_of_dvd _ dvd_rfl
      · rfl)
    [3, 1] [] (by decide) false 2 (by decide) (fun h => nomatch h)
    5 (fun h => nomatch h) [1, 2] (1, 4) (by decide) rfl

/-- C2 (counterexample): with blinding enabled and the caller-supplied
field order `Q = 7` different from the curve group order `N = 5`, the
share `(1, 3)` produced by a successful `Split`
(`secret = 3 ∈ [0, Q)`, `parts = threshold = 2`, secret coefficient
`1 ∈ [1, N)`, blinding coefficients `[0, 6]` with `6 ∈ [1, Q)`,
coordinates `[1, 2] ⊆ [1, Q)` distinct) does NOT verify against the
commitments of the same call with the matching blinding flag: `Verify`
returns `false`.  The claim fails when the blinding field order
differs from the curve order. -/
theorem split_shares_blinding_mixed_orders_fail_verify :
    splitValidate 7 (some 3) 2 2 = none ∧
      (1, 3) ∈ splitShares toyCurve.N 7 [3, 1] [0, 6] [1, 2] true ∧
      VerifySpec toyCurve 2 (1, 3)
        (some (splitCommits toyCurve [3, 1] [0, 6] true)) true = .ok false ∧
      Except.ok false ≠ (Except.ok true : Except VerifyError Bool) :=
  ⟨rfl, by decide, rfl, fun h => nomatch Except.ok.inj h⟩

end VSS
